import Mathlib

set_option maxHeartbeats 1000000

/-
Verification of the TR1 layered-network simulator codec pipeline.

Shallow embedding conventions:
- A bit string (Python str of '0'/'1') is a `List Bool`, `true` = '1', `false` = '0',
  in the same left-to-right order as the Python string.
- A byte string (Python bytes) is a `List Nat`, one entry per byte.
- Functions that raise ValueError are embedded as `Option`-valued functions
  returning `none` on the raising paths.
- Baseband voltages only ever take the exact values -1.0, 0.0, 1.0 and are only
  negated and compared, all of which are exact in IEEE floats, so they are
  embedded as `Int` values -1, 0, 1.
- Python integers are `Nat`; `&`, `|`, `^`, `<<` are `&&&`, `|||`, `^^^`, `<<<`.
-/

/-- Bit strings: `true` is the character '1', `false` is '0'. -/
abbrev Bitstring := List Bool

/-- Value of a bit string read most-significant-bit first (Python `int(s, 2)`):
each bit contributes `bit * 2^(number of bits to its right)`. -/
def bitsToNat : Bitstring → Nat
  | [] => 0
  | b :: rest => b.toNat * 2 ^ rest.length + bitsToNat rest

/-- Fixed-width big-endian rendering of a number (Python `format(v, '0wb')`,
for values below `2^w`, which is the only way it is used). -/
def natToBits : Nat → Nat → Bitstring
  | 0, _ => []
  | w+1, v => natToBits w (v / 2) ++ [decide (v % 2 = 1)]

/- ===== CamadaEnlace/enquadramento.py : Enquadramento ===== -/

/-- Enquadramento.aplicar_enquadramento_contagem_caracteres: pad the payload
with zeros to a byte multiple, prepend an 8-bit byte-count header; ValueError
(here `none`) when the padded payload exceeds 255 bytes. -/
def aplicar_enquadramento_contagem_caracteres (data_bits : Bitstring) : Option Bitstring :=
  let padding_len := (8 - data_bits.length % 8) % 8
  let padded_data_bits := data_bits ++ List.replicate padding_len false
  let num_bytes_payload := padded_data_bits.length / 8
  if 255 < num_bytes_payload then none
  else some (natToBits 8 num_bytes_payload ++ padded_data_bits)

/-- Enquadramento.remover_enquadramento_contagem_caracteres: read the 8-bit
header, return the first `header * 8` payload bits (or all of a short payload);
ValueError (here `none`) when the frame has fewer than 8 bits. -/
def remover_enquadramento_contagem_caracteres (frame_bits : Bitstring) : Option Bitstring :=
  if frame_bits.length < 8 then none
  else
    let length_header_bits := frame_bits.take 8
    let payload_with_padding_bits := frame_bits.drop 8
    let expected_payload_len_bits := bitsToNat length_header_bits * 8
    if payload_with_padding_bits.length < expected_payload_len_bits then
      some payload_with_padding_bits
    else
      some (payload_with_padding_bits.take expected_payload_len_bits)

/-- Enquadramento.FLAG_BIT_STR = "01111110". -/
def FLAG_BIT_STR : Bitstring := [false, true, true, true, true, true, true, false]

/-- Body of the bit-stuffing loop in aplicar_enquadramento_flags_bits:
`cnt` is `count_ones`; after five consecutive ones a '0' is inserted. -/
def stuffGo : Bitstring → Nat → Bitstring
  | [], _ => []
  | b :: rest, cnt =>
    if b then
      if cnt + 1 = 5 then true :: false :: stuffGo rest 0
      else true :: stuffGo rest (cnt + 1)
    else false :: stuffGo rest 0

/-- Enquadramento.aplicar_enquadramento_flags_bits: stuff a '0' after each run
of five '1's and wrap the result in the 8-bit flag pattern. -/
def aplicar_enquadramento_flags_bits (data_bits : Bitstring) : Bitstring :=
  FLAG_BIT_STR ++ stuffGo data_bits 0 ++ FLAG_BIT_STR

/-- Body of the destuffing loop in remover_enquadramento_flags_bits: on '1'
increment the count, erroring past five; a '0' after exactly five '1's is the
stuffing bit and is dropped. -/
def destuffGo : Bitstring → Nat → Option Bitstring
  | [], _ => some []
  | b :: rest, cnt =>
    if b then
      if 5 < cnt + 1 then none
      else Option.map (fun l => true :: l) (destuffGo rest (cnt + 1))
    else
      if cnt = 5 then destuffGo rest 0
      else Option.map (fun l => false :: l) (destuffGo rest 0)

/-- Enquadramento.remover_enquadramento_flags_bits: check the frame length and
both flags, strip them, and undo the bit stuffing; ValueError is `none`. -/
def remover_enquadramento_flags_bits (frame_bits : Bitstring) : Option Bitstring :=
  if frame_bits.length < 16 then none
  else if frame_bits.take 8 = FLAG_BIT_STR ∧ frame_bits.drop (frame_bits.length - 8) = FLAG_BIT_STR then
    destuffGo ((frame_bits.drop 8).take (frame_bits.length - 16)) 0
  else none

/-- Enquadramento.FLAG_BYTE = 0x7E. -/
def FLAG_BYTE : Nat := 0x7E

/-- Enquadramento.ESC_BYTE = 0x10. -/
def ESC_BYTE : Nat := 0x10

/-- Python bytes.replace for a two-byte pattern `[a, b]` replaced by the single
byte `c`: leftmost-first, non-overlapping. -/
def replacePair (a b c : Nat) : List Nat → List Nat
  | [] => []
  | [x] => [x]
  | x :: y :: rest =>
    if x = a ∧ y = b then c :: replacePair a b c rest
    else x :: replacePair a b c (y :: rest)

/-- Enquadramento.remover_enquadramento_flags_bytes: require at least two bytes
and a flag byte at both ends (ValueError, here `none`, otherwise), strip the
flags, then undo ESC+FLAG -> FLAG and ESC+ESC -> ESC in that order. -/
def remover_enquadramento_flags_bytes (frame_bytes : List Nat) : Option (List Nat) :=
  if frame_bytes.length < 2 then none
  else if frame_bytes.take 1 = [FLAG_BYTE] ∧
          frame_bytes.drop (frame_bytes.length - 1) = [FLAG_BYTE] then
    some (replacePair ESC_BYTE ESC_BYTE ESC_BYTE
      (replacePair ESC_BYTE FLAG_BYTE FLAG_BYTE
        ((frame_bytes.drop 1).take (frame_bytes.length - 2))))
  else none

/- ===== CamadaEnlace/deteccao_erros.py : DeteccaoErros ===== -/

/-- DeteccaoErros.CRC32_POLYNOMIAL (IEEE 802.3; the x^32 bit is implicit). -/
def CRC32_POLYNOMIAL : Nat := 0x04C11DB7

/-- DeteccaoErros.GRAU_CRC32. -/
def GRAU_CRC32 : Nat := 32

/-- The 33-bit divisor `(1 << 32) | CRC32_POLYNOMIAL` built by both CRC
methods. -/
def crcDivisor : Nat := (1 <<< GRAU_CRC32) ||| CRC32_POLYNOMIAL

/-- The long-division loop shared verbatim by calcular_crc32 and
verificar_crc32: starting at iteration `i` with `steps` iterations left over a
`lenF`-bit dividend `v`, XOR in the divisor shifted by `lenF - 33 - i` whenever
bit `lenF - 1 - i` of the running dividend is set. -/
def crcLoop (lenF : Nat) : Nat → Nat → Nat → Nat
  | _, 0, v => v
  | i, steps+1, v =>
    crcLoop lenF (i+1) steps
      (if v.testBit (lenF - 1 - i) then v ^^^ (crcDivisor <<< (lenF - 33 - i)) else v)

/-- DeteccaoErros.calcular_crc32: divide the data followed by 32 zero bits by
the generator and render the masked 32-bit remainder. -/
def calcular_crc32 (data_bits : Bitstring) : Bitstring :=
  let len_augmented := data_bits.length + GRAU_CRC32
  let dividend := bitsToNat (data_bits ++ List.replicate GRAU_CRC32 false)
  let r := crcLoop len_augmented 0 data_bits.length dividend
  natToBits GRAU_CRC32 (r &&& ((1 <<< GRAU_CRC32) - 1))

/-- DeteccaoErros.adicionar_crc32: append the CRC to the data. -/
def adicionar_crc32 (data_bits : Bitstring) : Bitstring :=
  data_bits ++ calcular_crc32 data_bits

/-- DeteccaoErros.verificar_crc32: reject frames shorter than 32 bits,
otherwise divide the whole frame by the generator and accept exactly when the
masked 32-bit remainder is zero. -/
def verificar_crc32 (frame_bits : Bitstring) : Bool :=
  if frame_bits.length < GRAU_CRC32 then false
  else
    let r := crcLoop frame_bits.length 0 (frame_bits.length - GRAU_CRC32)
      (bitsToNat frame_bits)
    decide (r &&& ((1 <<< GRAU_CRC32) - 1) = 0)

/-- Flip the bit at 0-indexed position `p` of a bit string: a single channel
bit error. -/
def flipAt (l : Bitstring) (p : Nat) : Bitstring := l.set p (!(l.getD p false))

/-- XOR of copies of the CRC divisor shifted by the entries of `l`: the total
correction a run of the division loop XORs into its dividend. -/
def xorShifts : List Nat → Nat
  | [] => 0
  | s :: rest => (crcDivisor <<< s) ^^^ xorShifts rest

/- ===== CamadaFisica/modulacoes_digitais.py : ModulacoesDigitais ===== -/

/-- ModulacoesDigitais.nrz_polar: '1' -> +1, '0' -> -1. -/
def nrz_polar (bits : Bitstring) : List Int :=
  bits.map (fun b => if b then 1 else -1)

/-- ModulacoesDigitais.manchester: '1' -> [-1, 1], '0' -> [1, -1]. -/
def manchester : Bitstring → List Int
  | [] => []
  | b :: rest => (if b then [-1, 1] else [1, -1]) ++ manchester rest

/-- Body of ModulacoesDigitais.bipolar: '0' -> 0, '1' -> the running
`last_one_voltage` which is negated after each use. -/
def bipolarGo : Bitstring → Int → List Int
  | [], _ => []
  | b :: rest, v => if b then v :: bipolarGo rest (-v) else 0 :: bipolarGo rest v

/-- ModulacoesDigitais.bipolar (AMI): alternation starts at +1. -/
def bipolar (bits : Bitstring) : List Int := bipolarGo bits 1

/-- ModulacoesDigitais.decodificar_nrz_polar: nonnegative sample -> '1'. -/
def decodificar_nrz_polar (signal : List Int) : Bitstring :=
  signal.map (fun v => decide (0 ≤ v))

/-- ModulacoesDigitais.decodificar_manchester: rising pair -> '1', falling
pair -> '0', an equal pair is skipped, a trailing lone sample is dropped. -/
def decodificar_manchester : List Int → Bitstring
  | a :: b :: rest =>
    if a < b then true :: decodificar_manchester rest
    else if b < a then false :: decodificar_manchester rest
    else decodificar_manchester rest
  | _ => []

/-- ModulacoesDigitais.decodificar_bipolar: zero sample -> '0', else '1'. -/
def decodificar_bipolar (signal : List Int) : Bitstring :=
  signal.map (fun v => if v = 0 then false else true)

/- ===== CamadaEnlace/correcao_erros.py : CorrecaoErros ===== -/

/-- The while-loop pattern shared by _determine_parity_bits and the start of
corrigir_hamming: starting from `m`, advance while `P` fails; `fuel` bounds the
iteration count (always chosen large enough for the loop to settle). -/
def findLeast (P : Nat → Bool) : Nat → Nat → Nat
  | m, 0 => m
  | m, fuel+1 => if P m then m else findLeast P (m+1) fuel

/-- CorrecaoErros._determine_parity_bits: the least m with 2^m >= n + m + 1
(m = n + 1 always satisfies the bound, so fuel n + 2 suffices). -/
def determine_parity_bits (data_len : Nat) : Nat :=
  findLeast (fun m => decide (data_len + m + 1 ≤ 2 ^ m)) 0 (data_len + 2)

/-- CorrecaoErros._is_power_of_two: n > 0 and n & (n - 1) == 0. -/
def is_power_of_two (n : Nat) : Bool := decide (0 < n) && (n &&& (n - 1) == 0)

/-- The data-placement pass of adicionar_hamming: walk the 0-indexed codeword
positions, reserving zero at power-of-two 1-indexed positions (the parity
slots) and filling the others with the data bits in order. -/
def placeData : Bitstring → Nat → Nat → Bitstring
  | _, _, 0 => []
  | data, i, len+1 =>
    if is_power_of_two (i + 1) then false :: placeData data (i+1) len
    else
      match data with
      | [] => false :: placeData [] (i+1) len
      | b :: rest => b :: placeData rest (i+1) len

/-- The count of ones computed for the parity at 1-indexed position p: ones at
0-indexed positions j whose 1-indexed position j+1 has a bit in common
with p. -/
def parityCount (cw : Bitstring) (p : Nat) : Nat :=
  (List.range cw.length).countP (fun j => decide ((j + 1) &&& p ≠ 0) && cw.getD j false)

/-- The parity-filling loop of adicionar_hamming: for i in range(m), set the
bit at 0-indexed position 2^i - 1 when its check counts an odd number of
ones. -/
def setParities : Bitstring → Nat → Nat → Bitstring
  | cw, _, 0 => cw
  | cw, i, fuel+1 =>
    setParities
      (if parityCount cw (2 ^ i) % 2 ≠ 0 then cw.set (2 ^ i - 1) true else cw)
      (i+1) fuel

/-- CorrecaoErros.adicionar_hamming. -/
def adicionar_hamming (data_bits : Bitstring) : Bitstring :=
  let n := data_bits.length
  let m := determine_parity_bits n
  setParities (placeData data_bits 0 (n + m)) 0 m

/-- The parity-bit count recomputed by corrigir_hamming from the codeword
length: the least m with 2^m >= total_len + 1 (fuel total_len + 1 suffices). -/
def hammingM (total_len : Nat) : Nat :=
  findLeast (fun m => decide (total_len + 1 ≤ 2 ^ m)) 0 (total_len + 1)

/-- The syndrome loop of corrigir_hamming: OR the parity position 2^i into the
syndrome whenever its recomputed check counts an odd number of ones. -/
def syndromeGo (cw : Bitstring) : Nat → Nat → Nat → Nat
  | _, 0, acc => acc
  | i, fuel+1, acc =>
    syndromeGo cw (i+1) fuel
      (if parityCount cw (2 ^ i) % 2 ≠ 0 then acc ||| 2 ^ i else acc)

/-- The syndrome computed by corrigir_hamming. -/
def hammingSyndrome (cw : Bitstring) : Nat :=
  syndromeGo cw 0 (hammingM cw.length) 0

/-- The status component of corrigir_hamming's returned pair, one constructor
per distinct message the Python code builds. -/
inductive HammingStatus where
  | corrected (pos : Nat) : HammingStatus
  | multibit (syndrome : Nat) : HammingStatus
  | noError : HammingStatus
deriving DecidableEq

/-- CorrecaoErros.corrigir_hamming: a zero syndrome reports no error; a
syndrome no larger than the codeword length points at the single flipped bit,
which is flipped back; a larger syndrome is an uncorrectable multi-bit error
and the codeword is returned unmodified. -/
def corrigir_hamming (codeword : Bitstring) : Bitstring × HammingStatus :=
  let s := hammingSyndrome codeword
  if 0 < s then
    if s - 1 < codeword.length then
      (codeword.set (s - 1) (!(codeword.getD (s - 1) false)), .corrected s)
    else
      (codeword, .multibit s)
  else
    (codeword, .noError)

/-- The position walk of remover_redundancia_hamming: keep exactly the bits
whose 1-indexed position is not a power of two. -/
def extractData : Bitstring → Nat → Bitstring
  | [], _ => []
  | b :: rest, i =>
    if is_power_of_two (i + 1) then extractData rest (i+1)
    else b :: extractData rest (i+1)

/-- CorrecaoErros.remover_redundancia_hamming. -/
def remover_redundancia_hamming (codeword : Bitstring) : Bitstring :=
  extractData codeword 0

/-- Count of power-of-two 1-indexed positions among i+1, ..., i+len. -/
def pow2Count : Nat → Nat → Nat
  | _, 0 => 0
  | i, len+1 => (if is_power_of_two (i + 1) then 1 else 0) + pow2Count (i+1) len

/-- Count of non-power-of-two 1-indexed positions among i+1, ..., i+len. -/
def nonPow2Count : Nat → Nat → Nat
  | _, 0 => 0
  | i, len+1 => (if is_power_of_two (i + 1) then 0 else 1) + nonPow2Count (i+1) len

/- ======================= theorems ======================= -/

/-- The char-count frame built from "1011" and what its inverse returns. -/
theorem contagem_caracteres_1011_frame :
    Option.bind (aplicar_enquadramento_contagem_caracteres [true, false, true, true])
      remover_enquadramento_contagem_caracteres
    = some [true, false, true, true, false, false, false, false] := by decide

/-- C1: the claim says the char-count round trip is the identity, and in
particular returns "1011" for input "1011".  Evaluating the code on "1011"
instead yields the zero-padded "10110000": the remover keeps the padding,
contradicting its own docstring, which promises the padding is removed. -/
theorem contagem_caracteres_roundtrip_pads_1011 :
    Option.bind (aplicar_enquadramento_contagem_caracteres [true, false, true, true])
      remover_enquadramento_contagem_caracteres
    = some [true, false, true, true, false, false, false, false] ∧
    Option.bind (aplicar_enquadramento_contagem_caracteres [true, false, true, true])
      remover_enquadramento_contagem_caracteres
    ≠ some [true, false, true, true] := by
  refine ⟨contagem_caracteres_1011_frame, ?_⟩
  decide

/-- Destuffing inverts stuffing, for any running ones-count below five. -/
theorem destuffGo_stuffGo (b : Bitstring) : ∀ cnt, cnt < 5 →
    destuffGo (stuffGo b cnt) cnt = some b := by
  induction b with
  | nil => intro cnt _; simp [stuffGo, destuffGo]
  | cons x rest ih =>
    intro cnt hcnt
    cases x with
    | true =>
      by_cases h5 : cnt + 1 = 5
      · simp only [stuffGo, if_pos rfl, if_pos h5, destuffGo]
        have : ¬ 5 < cnt + 1 := by omega
        simp only [if_pos rfl, if_neg this, h5, ih 0 (by omega)]
        rfl
      · simp only [stuffGo, if_pos rfl, if_neg h5, destuffGo]
        have : ¬ 5 < cnt + 1 := by omega
        simp only [if_pos rfl, if_neg this, ih (cnt + 1) (by omega)]
        rfl
    | false =>
      simp only [stuffGo, destuffGo]
      have : ¬ cnt = 5 := by omega
      simp only [if_neg this, ih 0 (by omega)]
      rfl

/-- C6: bit stuffing round-trips exactly, for every payload (the empty payload
included): removing the framing from an applied frame always succeeds and
returns the original bits. -/
theorem flags_bits_roundtrip (b : Bitstring) :
    remover_enquadramento_flags_bits (aplicar_enquadramento_flags_bits b) = some b := by
  have hflag : FLAG_BIT_STR.length = 8 := rfl
  set s := stuffGo b 0 with hs
  have hframe : aplicar_enquadramento_flags_bits b = FLAG_BIT_STR ++ (s ++ FLAG_BIT_STR) := by
    simp [aplicar_enquadramento_flags_bits, hs]
  have hlen : (aplicar_enquadramento_flags_bits b).length = 16 + s.length := by
    simp [hframe]; omega
  rw [remover_enquadramento_flags_bits]
  rw [if_neg (by omega)]
  have htake : (aplicar_enquadramento_flags_bits b).take 8 = FLAG_BIT_STR := by
    rw [hframe]
    have : (8 : Nat) = FLAG_BIT_STR.length := rfl
    rw [this, List.take_left]
  have hdrop : (aplicar_enquadramento_flags_bits b).drop
      ((aplicar_enquadramento_flags_bits b).length - 8) = FLAG_BIT_STR := by
    rw [hlen, hframe]
    have h1 : FLAG_BIT_STR ++ (s ++ FLAG_BIT_STR) = (FLAG_BIT_STR ++ s) ++ FLAG_BIT_STR := by
      simp [List.append_assoc]
    have h2 : 16 + s.length - 8 = (FLAG_BIT_STR ++ s).length := by
      simp [hflag]; omega
    rw [h1, h2, List.drop_left]
  rw [if_pos ⟨htake, hdrop⟩]
  have hpayload : ((aplicar_enquadramento_flags_bits b).drop 8).take
      ((aplicar_enquadramento_flags_bits b).length - 16) = s := by
    rw [hlen, hframe]
    have : (8 : Nat) = FLAG_BIT_STR.length := rfl
    rw [this, List.drop_left]
    have h2 : 16 + s.length - 16 = s.length := by omega
    rw [h2, List.take_left]
  rw [hpayload, hs]
  exact destuffGo_stuffGo b 0 (by omega)

/-- C8 counterexample: the frame 7E 10 7E has a stuffed payload consisting of a
single dangling escape byte, yet the byte-stuffing remover accepts it and
returns the escape byte instead of raising a framing error. -/
theorem flags_bytes_dangling_escape_accepted :
    remover_enquadramento_flags_bytes [0x7E, 0x10, 0x7E] = some [0x10] := by decide

/-- C8 amended: the byte-stuffing remover fails exactly when the frame is
shorter than two bytes or does not both start and end with the flag byte 0x7E;
a dangling escape byte at the end of the stuffed payload is not detected. -/
theorem flags_bytes_error_iff (frame : List Nat) :
    remover_enquadramento_flags_bytes frame = none ↔
    ¬(2 ≤ frame.length ∧ frame.take 1 = [FLAG_BYTE] ∧
      frame.drop (frame.length - 1) = [FLAG_BYTE]) := by
  rw [remover_enquadramento_flags_bytes]
  by_cases h1 : frame.length < 2
  · rw [if_pos h1]
    simp only [true_iff]
    intro h
    omega
  · rw [if_neg h1]
    by_cases h2 : frame.take 1 = [FLAG_BYTE] ∧ frame.drop (frame.length - 1) = [FLAG_BYTE]
    · rw [if_pos h2]
      constructor
      · intro h; exact absurd h (by simp)
      · intro h; exact absurd ⟨by omega, h2.1, h2.2⟩ h
    · rw [if_neg h2]
      simp only [true_iff]
      intro h
      exact h2 ⟨h.2.1, h.2.2⟩

/-- Manchester decoding inverts Manchester encoding. -/
theorem decodificar_manchester_manchester (b : Bitstring) :
    decodificar_manchester (manchester b) = b := by
  induction b with
  | nil => rfl
  | cons x rest ih =>
    cases x with
    | true => simpa [manchester, decodificar_manchester] using ih
    | false => simpa [manchester, decodificar_manchester] using ih

/-- Bipolar decoding inverts bipolar encoding for any nonzero alternation state. -/
theorem decodificar_bipolarGo (b : Bitstring) : ∀ v : Int, v ≠ 0 →
    decodificar_bipolar (bipolarGo b v) = b := by
  induction b with
  | nil => intro v _; rfl
  | cons x rest ih =>
    intro v hv
    cases x with
    | true =>
      have h2 := ih (-v) (by omega)
      simp only [decodificar_bipolar] at h2 ⊢
      rw [show bipolarGo (true :: rest) v = v :: bipolarGo rest (-v) from rfl]
      rw [List.map_cons, h2]
      simp [hv]
    | false =>
      have h2 := ih v hv
      simp only [decodificar_bipolar] at h2 ⊢
      rw [show bipolarGo (false :: rest) v = 0 :: bipolarGo rest v from rfl]
      rw [List.map_cons, h2]
      simp

/-- C7: each baseband line code round-trips bit-exactly over a noiseless
channel: NRZ-polar, Manchester and bipolar AMI decoders invert their encoders
on every bit string. -/
theorem modulacoes_digitais_roundtrip (b : Bitstring) :
    decodificar_nrz_polar (nrz_polar b) = b ∧
    decodificar_manchester (manchester b) = b ∧
    decodificar_bipolar (bipolar b) = b := by
  refine ⟨?_, decodificar_manchester_manchester b, decodificar_bipolarGo b 1 (by omega)⟩
  induction b with
  | nil => rfl
  | cons x rest ih =>
    cases x with
    | true => simpa [nrz_polar, decodificar_nrz_polar] using ih
    | false => simpa [nrz_polar, decodificar_nrz_polar] using ih

/- ===== CRC-32 proofs ===== -/

/-- Cons form of bitsToNat with the power on the left. -/
theorem bitsToNat_cons (b : Bool) (l : Bitstring) :
    bitsToNat (b :: l) = 2 ^ l.length * b.toNat + bitsToNat l := by
  show b.toNat * 2 ^ l.length + bitsToNat l = _
  ring

/-- bitsToNat splits over append. -/
theorem bitsToNat_append (a c : Bitstring) :
    bitsToNat (a ++ c) = bitsToNat a * 2 ^ c.length + bitsToNat c := by
  induction a with
  | nil => simp [bitsToNat]
  | cons b rest ih =>
    rw [List.cons_append, bitsToNat_cons, ih, bitsToNat_cons, List.length_append]
    rw [Nat.pow_add]
    ring

/-- A bit string of length n denotes a value below 2^n. -/
theorem bitsToNat_lt (l : Bitstring) : bitsToNat l < 2 ^ l.length := by
  induction l with
  | nil => simp [bitsToNat]
  | cons b rest ih =>
    rw [bitsToNat_cons, List.length_cons, Nat.pow_succ]
    have hb : b.toNat ≤ 1 := by cases b <;> simp
    have h2 : 2 ^ rest.length * b.toNat ≤ 2 ^ rest.length := by
      calc 2 ^ rest.length * b.toNat ≤ 2 ^ rest.length * 1 := Nat.mul_le_mul_left _ hb
        _ = 2 ^ rest.length := Nat.mul_one _
    omega

/-- A run of zero bits denotes zero. -/
theorem bitsToNat_replicate_false (n : Nat) : bitsToNat (List.replicate n false) = 0 := by
  induction n with
  | zero => rfl
  | succ k ih => rw [List.replicate_succ, bitsToNat_cons, ih]; simp

/-- natToBits produces exactly w bits. -/
theorem natToBits_length (w : Nat) : ∀ v, (natToBits w v).length = w := by
  induction w with
  | zero => intro v; rfl
  | succ k ih => intro v; rw [natToBits, List.length_append, ih]; rfl

/-- natToBits renders the value modulo 2^w. -/
theorem bitsToNat_natToBits (w : Nat) : ∀ v, bitsToNat (natToBits w v) = v % 2 ^ w := by
  induction w with
  | zero => intro v; simp [natToBits, bitsToNat, Nat.mod_one]
  | succ k ih =>
    intro v
    rw [natToBits, bitsToNat_append, ih]
    have h1 : bitsToNat [decide (v % 2 = 1)] = v % 2 := by
      rcases Nat.mod_two_eq_zero_or_one v with h | h <;> simp [h, bitsToNat]
    have h2 : (2 : Nat) ^ (k + 1) = 2 * 2 ^ k := by rw [Nat.pow_succ]; ring
    rw [h1, h2, Nat.mod_mul]
    have h3 : ([decide (v % 2 = 1)] : Bitstring).length = 1 := rfl
    rw [h3]
    ring

/-- The divisor fits in 33 bits. -/
theorem crcDivisor_lt : crcDivisor < 2 ^ 33 := by decide

/-- Bit 32 of the divisor (the implicit leading polynomial term) is set. -/
theorem crcDivisor_testBit32 : crcDivisor.testBit 32 = true := by decide

/-- Bit 0 of the divisor is set (the IEEE polynomial is odd). -/
theorem crcDivisor_testBit0 : crcDivisor.testBit 0 = true := by decide

/-- The shifted divisor is below 2^B once s + 33 ≤ B. -/
theorem crcDivisor_shiftLeft_lt (s B : Nat) (h : s + 33 ≤ B) : crcDivisor <<< s < 2 ^ B := by
  rw [Nat.shiftLeft_eq]
  calc crcDivisor * 2 ^ s < 2 ^ 33 * 2 ^ s := by gcongr <;> decide
    _ = 2 ^ (33 + s) := by rw [Nat.pow_add]
    _ ≤ 2 ^ B := Nat.pow_le_pow_right (by omega) (by omega)

/-- A value below 2^(k+1) whose bit k is clear is below 2^k. -/
theorem lt_two_pow_of_top_false {v k : Nat} (h1 : v < 2 ^ (k + 1))
    (h2 : v.testBit k = false) : v < 2 ^ k := by
  apply Nat.lt_pow_two_of_testBit
  intro i hi
  rcases Nat.eq_or_lt_of_le hi with h | h
  · rwa [← h]
  · exact Nat.testBit_lt_two_pow (lt_of_lt_of_le h1 (Nat.pow_le_pow_right (by omega) (by omega)))

/-- The division loop is XOR-linear in its dividend: each iteration XORs in a
value-independent correction selected by one bit of the running dividend. -/
theorem crcLoop_xor (lenF : Nat) : ∀ steps i a b,
    crcLoop lenF i steps (a ^^^ b) = crcLoop lenF i steps a ^^^ crcLoop lenF i steps b := by
  intro steps
  induction steps with
  | zero => intro i a b; rfl
  | succ n ih =>
    intro i a b
    simp only [crcLoop]
    rw [Nat.testBit_xor]
    cases ha : a.testBit (lenF - 1 - i) <;> cases hb : b.testBit (lenF - 1 - i)
    · show crcLoop lenF (i+1) n (a ^^^ b)
        = crcLoop lenF (i+1) n a ^^^ crcLoop lenF (i+1) n b
      exact ih (i+1) a b
    · show crcLoop lenF (i+1) n ((a ^^^ b) ^^^ crcDivisor <<< (lenF - 33 - i))
        = crcLoop lenF (i+1) n a ^^^ crcLoop lenF (i+1) n (b ^^^ crcDivisor <<< (lenF - 33 - i))
      rw [← ih (i+1) a (b ^^^ crcDivisor <<< (lenF - 33 - i)), ← Nat.xor_assoc]
    · show crcLoop lenF (i+1) n ((a ^^^ b) ^^^ crcDivisor <<< (lenF - 33 - i))
        = crcLoop lenF (i+1) n (a ^^^ crcDivisor <<< (lenF - 33 - i)) ^^^ crcLoop lenF (i+1) n b
      rw [← ih (i+1) (a ^^^ crcDivisor <<< (lenF - 33 - i)) b]
      congr 1
      rw [Nat.xor_assoc, Nat.xor_assoc, Nat.xor_comm b (crcDivisor <<< (lenF - 33 - i))]
    · show crcLoop lenF (i+1) n (a ^^^ b)
        = crcLoop lenF (i+1) n (a ^^^ crcDivisor <<< (lenF - 33 - i))
          ^^^ crcLoop lenF (i+1) n (b ^^^ crcDivisor <<< (lenF - 33 - i))
      rw [← ih (i+1) (a ^^^ crcDivisor <<< (lenF - 33 - i))
        (b ^^^ crcDivisor <<< (lenF - 33 - i))]
      congr 1
      rw [Nat.xor_assoc a (crcDivisor <<< (lenF - 33 - i)),
        Nat.xor_comm b (crcDivisor <<< (lenF - 33 - i)),
        ← Nat.xor_assoc (crcDivisor <<< (lenF - 33 - i)) (crcDivisor <<< (lenF - 33 - i)) b,
        Nat.xor_self, Nat.zero_xor]

/-- Dividends already below 2^32 are untouched by the loop: every tested bit
position is at least 32. -/
theorem crcLoop_fixed (lenF : Nat) : ∀ steps i v, v < 2 ^ 32 → 32 + i + steps ≤ lenF →
    crcLoop lenF i steps v = v := by
  intro steps
  induction steps with
  | zero => intro i v _ _; rfl
  | succ n ih =>
    intro i v hv hle
    simp only [crcLoop]
    have hbit : v.testBit (lenF - 1 - i) = false := by
      apply Nat.testBit_lt_two_pow
      exact lt_of_lt_of_le hv (Nat.pow_le_pow_right (by omega) (by omega))
    have hcond : ¬ (v.testBit (lenF - 1 - i) = true) := by simp [hbit]
    rw [if_neg hcond]
    exact ih (i+1) v hv (by omega)

/-- Every loop iteration clears one more leading bit of the dividend: after
`steps` iterations a dividend of `lenF - i` bits has `lenF - i - steps` bits. -/
theorem crcLoop_lt (lenF : Nat) : ∀ steps i v, 32 + i + steps ≤ lenF →
    v < 2 ^ (lenF - i) → crcLoop lenF i steps v < 2 ^ (lenF - i - steps) := by
  intro steps
  induction steps with
  | zero => intro i v _ hv; simpa using hv
  | succ n ih =>
    intro i v hle hv
    simp only [crcLoop]
    have hk : lenF - 1 - i + 1 = lenF - i := by omega
    have hgoal : lenF - i - (n + 1) = lenF - (i + 1) - n := by omega
    rw [hgoal]
    by_cases hbit : v.testBit (lenF - 1 - i) = true
    · rw [if_pos hbit]
      have hM : crcDivisor <<< (lenF - 33 - i) < 2 ^ (lenF - i) :=
        crcDivisor_shiftLeft_lt _ _ (by omega)
      have hv2 : v ^^^ crcDivisor <<< (lenF - 33 - i) < 2 ^ (lenF - i) :=
        Nat.xor_lt_two_pow hv hM
      have htop : (v ^^^ crcDivisor <<< (lenF - 33 - i)).testBit (lenF - 1 - i) = false := by
        rw [Nat.testBit_xor, hbit]
        have hMS : (crcDivisor <<< (lenF - 33 - i)).testBit (lenF - 1 - i) = true := by
          rw [Nat.testBit_shiftLeft]
          have h1 : lenF - 1 - i - (lenF - 33 - i) = 32 := by omega
          have h2 : lenF - 33 - i ≤ lenF - 1 - i := by omega
          simp [h1, h2, crcDivisor_testBit32]
        rw [hMS]
        rfl
      have hlt2 : v ^^^ crcDivisor <<< (lenF - 33 - i) < 2 ^ (lenF - 1 - i) := by
        apply lt_two_pow_of_top_false _ htop
        rwa [hk]
      have := ih (i+1) (v ^^^ crcDivisor <<< (lenF - 33 - i)) (by omega) (by
        have he : lenF - (i+1) = lenF - 1 - i := by omega
        rwa [he])
      exact this
    · rw [if_neg hbit]
      have hbit2 : v.testBit (lenF - 1 - i) = false := by
        cases h : v.testBit (lenF - 1 - i)
        · rfl
        · exact absurd h hbit
      have hlt2 : v < 2 ^ (lenF - 1 - i) := by
        apply lt_two_pow_of_top_false _ hbit2
        rwa [hk]
      exact ih (i+1) v (by omega) (by
        have he : lenF - (i+1) = lenF - 1 - i := by omega
        rwa [he])

/-- A run of the loop equals its initial dividend XOR a set of divisor copies
at strictly decreasing shifts. -/
theorem crcLoop_trace (lenF : Nat) : ∀ steps i v, 32 + i + steps ≤ lenF →
    ∃ l : List Nat, crcLoop lenF i steps v = v ^^^ xorShifts l ∧
      l.Pairwise (fun x y => x > y) ∧ ∀ s ∈ l, s + 33 + i ≤ lenF := by
  intro steps
  induction steps with
  | zero =>
    intro i v _
    refine ⟨[], ?_, List.Pairwise.nil, by simp⟩
    simp [crcLoop, xorShifts]
  | succ n ih =>
    intro i v hle
    simp only [crcLoop]
    by_cases hbit : v.testBit (lenF - 1 - i) = true
    · rw [if_pos hbit]
      obtain ⟨l, hval, hpw, hbd⟩ := ih (i+1) (v ^^^ crcDivisor <<< (lenF - 33 - i)) (by omega)
      refine ⟨(lenF - 33 - i) :: l, ?_, ?_, ?_⟩
      · rw [hval, xorShifts, Nat.xor_assoc]
      · rw [List.pairwise_cons]
        refine ⟨fun t ht => ?_, hpw⟩
        have := hbd t ht
        omega
      · intro s hs
        rcases List.mem_cons.mp hs with h | h
        · omega
        · have := hbd s h
          omega
    · rw [if_neg hbit]
      obtain ⟨l, hval, hpw, hbd⟩ := ih (i+1) v (by omega)
      refine ⟨l, hval, hpw, fun s hs => ?_⟩
      have := hbd s hs
      omega

/-- A XOR of divisor copies with all shifts at least 33 below B stays below
2^B. -/
theorem xorShifts_lt (B : Nat) : ∀ l : List Nat, (∀ t ∈ l, t + 33 ≤ B) →
    xorShifts l < 2 ^ B := by
  intro l
  induction l with
  | nil => intro _; simpa [xorShifts] using Nat.two_pow_pos B
  | cons s rest ih =>
    intro h
    rw [xorShifts]
    apply Nat.xor_lt_two_pow
    · exact crcDivisor_shiftLeft_lt _ _ (h s (by simp))
    · exact ih (fun t ht => h t (by simp [ht]))

/-- The highest shift of a nonempty shift set leaves its mark: bit `s + 32` of
the XOR is set when every other shift is below `s`. -/
theorem xorShifts_testBit_top (s : Nat) (l : List Nat) (h : ∀ t ∈ l, t < s) :
    (xorShifts (s :: l)).testBit (s + 32) = true := by
  rw [xorShifts, Nat.testBit_xor]
  have h1 : (crcDivisor <<< s).testBit (s + 32) = true := by
    rw [Nat.testBit_shiftLeft]
    have h2 : s ≤ s + 32 := by omega
    have h3 : s + 32 - s = 32 := by omega
    simp [h2, h3, crcDivisor_testBit32]
  have h4 : (xorShifts l).testBit (s + 32) = false := by
    apply Nat.testBit_lt_two_pow
    exact xorShifts_lt (s + 32) l (fun t ht => by have := h t ht; omega)
  rw [h1, h4]
  rfl

/-- The lowest shift also leaves its mark: the divisor is odd, so bit equal to
the last (smallest) shift of a strictly decreasing shift set is set. -/
theorem xorShifts_testBit_last : ∀ (l : List Nat), l.Pairwise (fun x y => x > y) →
    ∀ (hne : l ≠ []), (xorShifts l).testBit (l.getLast hne) = true := by
  intro l
  induction l with
  | nil => intro _ hne; exact absurd rfl hne
  | cons s rest ih =>
    intro hp hne
    cases rest with
    | nil =>
      show (xorShifts [s]).testBit s = true
      rw [xorShifts, xorShifts, Nat.xor_zero, Nat.testBit_shiftLeft]
      simp
      decide
    | cons r rs =>
      have hne2 : r :: rs ≠ [] := by simp
      have hp2 := List.pairwise_cons.mp hp
      have hlast : (s :: r :: rs).getLast hne = (r :: rs).getLast hne2 :=
        List.getLast_cons hne2
      rw [hlast, xorShifts, Nat.testBit_xor]
      have hmem : (r :: rs).getLast hne2 ∈ r :: rs := List.getLast_mem hne2
      have hlt : (r :: rs).getLast hne2 < s := hp2.1 _ hmem
      have h1 : (crcDivisor <<< s).testBit ((r :: rs).getLast hne2) = false := by
        rw [Nat.testBit_shiftLeft]
        simp [Nat.not_le.mpr hlt]
      rw [h1, ih hp2.2 hne2]
      rfl

/-- No XOR of divisor copies at strictly decreasing shifts is a power of two:
the top and bottom marked bits would have to be 32 positions apart and equal. -/
theorem xorShifts_ne_two_pow : ∀ (l : List Nat), l.Pairwise (fun x y => x > y) →
    ∀ k, xorShifts l ≠ 2 ^ k := by
  intro l hp k heq
  cases l with
  | nil =>
    have h0 : xorShifts [] = 0 := rfl
    rw [h0] at heq
    have := Nat.two_pow_pos k
    omega
  | cons s rest =>
    have hp2 := List.pairwise_cons.mp hp
    have htop := xorShifts_testBit_top s rest hp2.1
    rw [heq, Nat.testBit_two_pow] at htop
    have hk1 : k = s + 32 := by simpa using htop
    have hne : s :: rest ≠ [] := by simp
    have hlast := xorShifts_testBit_last (s :: rest) hp hne
    rw [heq, Nat.testBit_two_pow] at hlast
    have hk2 : k = (s :: rest).getLast hne := by simpa using hlast
    have hmem : (s :: rest).getLast hne ∈ s :: rest := List.getLast_mem hne
    rcases List.mem_cons.mp hmem with h | h
    · omega
    · have := hp2.1 _ h
      omega

/-- XOR acts independently on the high part (above 2^i) and the low part
(below 2^i) of a split number. -/
theorem mul_pow_add_xor (i a c : Nat) {b d : Nat} (hb : b < 2 ^ i) (hd : d < 2 ^ i) :
    (2 ^ i * a + b) ^^^ (2 ^ i * c + d) = 2 ^ i * (a ^^^ c) + (b ^^^ d) := by
  apply Nat.eq_of_testBit_eq
  intro j
  rw [Nat.testBit_xor, Nat.testBit_mul_pow_two_add a hb, Nat.testBit_mul_pow_two_add c hd,
    Nat.testBit_mul_pow_two_add (a ^^^ c) (Nat.xor_lt_two_pow hb hd)]
  by_cases hj : j < i
  · simp [hj, Nat.testBit_xor]
  · simp [hj, Nat.testBit_xor]

/-- Adding a low part below 2^i is the same as XORing it in. -/
theorem mul_pow_add_eq_xor (i a : Nat) {b : Nat} (hb : b < 2 ^ i) :
    2 ^ i * a + b = (2 ^ i * a) ^^^ b := by
  have h := mul_pow_add_xor i a 0 (Nat.two_pow_pos i) hb
  simpa using h.symm

/-- XOR of a low value into a split number only touches the low part. -/
theorem mul_pow_add_xor_low (i a : Nat) {b d : Nat} (hb : b < 2 ^ i) (hd : d < 2 ^ i) :
    (2 ^ i * a + b) ^^^ d = 2 ^ i * a + (b ^^^ d) := by
  have h := mul_pow_add_xor i a 0 hb hd
  simpa using h

/-- Flipping the bit at position p XORs 2^(length - 1 - p) into the value. -/
theorem bitsToNat_flipAt : ∀ (l : Bitstring) (p : Nat), p < l.length →
    bitsToNat (flipAt l p) = bitsToNat l ^^^ 2 ^ (l.length - 1 - p) := by
  intro l
  induction l with
  | nil => intro p hp; simp at hp
  | cons b rest ih =>
    intro p hp
    cases p with
    | zero =>
      have h0 : flipAt (b :: rest) 0 = (!b) :: rest := rfl
      have hexp : (b :: rest).length - 1 - 0 = rest.length := by
        simp only [List.length_cons]
        omega
      rw [h0, hexp, bitsToNat_cons, bitsToNat_cons]
      have hR := bitsToNat_lt rest
      rw [show (2 : Nat) ^ rest.length * b.toNat + bitsToNat rest ^^^ 2 ^ rest.length
          = 2 ^ rest.length * (b.toNat ^^^ 1) + bitsToNat rest from ?flip]
      case flip =>
        have h2 : (2 : Nat) ^ rest.length * b.toNat + bitsToNat rest ^^^ 2 ^ rest.length * 1
            = 2 ^ rest.length * (b.toNat ^^^ 1) + (bitsToNat rest) := by
          have h3 := mul_pow_add_xor rest.length b.toNat 1 hR (Nat.two_pow_pos rest.length)
          simpa using h3
        simpa using h2
      congr 1
      cases b <;> rfl
    | succ q =>
      have h0 : flipAt (b :: rest) (q + 1) = b :: flipAt rest q := rfl
      have hq : q < rest.length := by
        simp only [List.length_cons] at hp
        omega
      have hexp : (b :: rest).length - 1 - (q + 1) = rest.length - 1 - q := by
        simp only [List.length_cons]
        omega
      have hlen : (flipAt rest q).length = rest.length := by
        simp [flipAt]
      rw [h0, hexp, bitsToNat_cons, bitsToNat_cons, hlen, ih q hq]
      have hd : (2 : Nat) ^ (rest.length - 1 - q) < 2 ^ rest.length :=
        Nat.pow_lt_pow_right (by omega) (by omega)
      rw [mul_pow_add_xor_low rest.length b.toNat (bitsToNat_lt rest) hd]

/-- Unfolded form of calcular_crc32. -/
theorem calcular_crc32_def (d : Bitstring) : calcular_crc32 d =
    natToBits GRAU_CRC32 ((crcLoop (d.length + GRAU_CRC32) 0 d.length
      (bitsToNat (d ++ List.replicate GRAU_CRC32 false))) &&& ((1 <<< GRAU_CRC32) - 1)) := rfl

/-- Unfolded form of verificar_crc32. -/
theorem verificar_crc32_def (frame_bits : Bitstring) : verificar_crc32 frame_bits =
    if frame_bits.length < GRAU_CRC32 then false
    else decide ((crcLoop frame_bits.length 0 (frame_bits.length - GRAU_CRC32)
      (bitsToNat frame_bits)) &&& ((1 <<< GRAU_CRC32) - 1) = 0) := rfl

/-- The 32-bit mask is reduction modulo 2^32. -/
theorem mask32 (r : Nat) : r &&& ((1 <<< GRAU_CRC32) - 1) = r % 2 ^ 32 := by
  have h : (1 : Nat) <<< GRAU_CRC32 = 2 ^ 32 := by
    simp [GRAU_CRC32, Nat.shiftLeft_eq]
  rw [h]
  exact Nat.and_pow_two_sub_one_eq_mod r 32

/-- Appending 32 zero bits multiplies the value by 2^32. -/
theorem dividend_eq (d : Bitstring) :
    bitsToNat (d ++ List.replicate GRAU_CRC32 false) = 2 ^ 32 * bitsToNat d := by
  rw [bitsToNat_append, bitsToNat_replicate_false, List.length_replicate]
  simp only [GRAU_CRC32]
  ring

/-- The CRC remainder of the zero-augmented data fits in 32 bits. -/
theorem crcRem_lt (d : Bitstring) :
    crcLoop (d.length + 32) 0 d.length (2 ^ 32 * bitsToNat d) < 2 ^ 32 := by
  have hb := bitsToNat_lt d
  have h1 : 2 ^ 32 * bitsToNat d < 2 ^ (d.length + 32 - 0) := by
    calc 2 ^ 32 * bitsToNat d < 2 ^ 32 * 2 ^ d.length := by gcongr <;> omega
      _ = 2 ^ (32 + d.length) := by rw [← Nat.pow_add]
      _ = 2 ^ (d.length + 32 - 0) := by congr 1; omega
  have h2 := crcLoop_lt (d.length + 32) d.length 0 (2 ^ 32 * bitsToNat d) (by omega) h1
  have h3 : d.length + 32 - 0 - d.length = 32 := by omega
  rwa [h3] at h2

/-- calcular_crc32 produces 32 bits whose value is the loop remainder. -/
theorem calcular_crc32_spec (d : Bitstring) :
    (calcular_crc32 d).length = 32 ∧
    bitsToNat (calcular_crc32 d) = crcLoop (d.length + 32) 0 d.length (2 ^ 32 * bitsToNat d) := by
  have hrlt := crcRem_lt d
  constructor
  · rw [calcular_crc32_def]
    exact natToBits_length _ _
  · rw [calcular_crc32_def, bitsToNat_natToBits, mask32, dividend_eq]
    simp only [GRAU_CRC32]
    rw [Nat.mod_eq_of_lt hrlt, Nat.mod_eq_of_lt hrlt]

/-- A CRC-protected frame is 32 bits longer than its data. -/
theorem adicionar_crc32_length (d : Bitstring) :
    (adicionar_crc32 d).length = d.length + 32 := by
  simp only [adicionar_crc32, List.length_append, (calcular_crc32_spec d).1]

/-- Dividing a freshly generated frame leaves remainder zero. -/
theorem crcLoop_adicionar_zero (d : Bitstring) :
    crcLoop (d.length + 32) 0 d.length (bitsToNat (adicionar_crc32 d)) = 0 := by
  obtain ⟨hlen, hval⟩ := calcular_crc32_spec d
  have hrlt := crcRem_lt d
  have hframe : bitsToNat (adicionar_crc32 d)
      = (2 ^ 32 * bitsToNat d) ^^^ crcLoop (d.length + 32) 0 d.length (2 ^ 32 * bitsToNat d) := by
    simp only [adicionar_crc32]
    rw [bitsToNat_append, hlen, hval, Nat.mul_comm]
    exact mul_pow_add_eq_xor 32 (bitsToNat d) hrlt
  rw [hframe, crcLoop_xor,
    crcLoop_fixed (d.length + 32) d.length 0 _ hrlt (by omega), Nat.xor_self]

/-- C3: verificar_crc32 accepts every frame generated by adicionar_crc32: the
full frame (payload plus appended CRC) divides to a zero remainder; in
particular for the data "110101". -/
theorem verificar_adicionar_crc32 :
    (∀ d : Bitstring, verificar_crc32 (adicionar_crc32 d) = true) ∧
    verificar_crc32 (adicionar_crc32 [true, true, false, true, false, true]) = true := by
  have main : ∀ d : Bitstring, verificar_crc32 (adicionar_crc32 d) = true := by
    intro d
    have hlen := adicionar_crc32_length d
    rw [verificar_crc32_def, hlen]
    have hc : ¬ (d.length + 32 < GRAU_CRC32) := by simp only [GRAU_CRC32]; omega
    rw [if_neg hc]
    have hsteps : d.length + 32 - GRAU_CRC32 = d.length := by simp only [GRAU_CRC32]; omega
    rw [hsteps, crcLoop_adicionar_zero, mask32]
    simp
  exact ⟨main, main _⟩

/-- C4: flipping any single bit of a frame generated by adicionar_crc32 makes
verificar_crc32 reject the altered frame: no false negatives at Hamming
distance one. -/
theorem crc32_single_flip_detected (d : Bitstring) (p : Nat) (hp : p < d.length + 32) :
    verificar_crc32 (flipAt (adicionar_crc32 d) p) = false := by
  have hlen := adicionar_crc32_length d
  have hlen2 : (flipAt (adicionar_crc32 d) p).length = d.length + 32 := by
    simp [flipAt, hlen]
  have hp2 : p < (adicionar_crc32 d).length := by omega
  have hflip := bitsToNat_flipAt (adicionar_crc32 d) p hp2
  rw [hlen] at hflip
  rw [verificar_crc32_def, hlen2]
  have hc : ¬ (d.length + 32 < GRAU_CRC32) := by simp only [GRAU_CRC32]; omega
  rw [if_neg hc]
  have hsteps : d.length + 32 - GRAU_CRC32 = d.length := by simp only [GRAU_CRC32]; omega
  rw [hsteps, hflip, crcLoop_xor, crcLoop_adicionar_zero, Nat.zero_xor, mask32]
  set k := d.length + 32 - 1 - p with hk
  set X := crcLoop (d.length + 32) 0 d.length (2 ^ k) with hX
  have hXlt : X < 2 ^ 32 := by
    have h1 : (2 : Nat) ^ k < 2 ^ (d.length + 32 - 0) := by
      apply Nat.pow_lt_pow_right (by omega)
      omega
    have h2 := crcLoop_lt (d.length + 32) d.length 0 (2 ^ k) (by omega) h1
    have h3 : d.length + 32 - 0 - d.length = 32 := by omega
    rw [h3] at h2
    rw [hX]
    exact h2
  have hXne : X ≠ 0 := by
    intro h0
    obtain ⟨l, hval, hpw, _⟩ := crcLoop_trace (d.length + 32) d.length 0 (2 ^ k) (by omega)
    have h4 : 2 ^ k ^^^ xorShifts l = 0 := by
      rw [← hval, ← hX]
      exact h0
    have h5 : (2 : Nat) ^ k = xorShifts l := Nat.xor_eq_zero.mp h4
    exact xorShifts_ne_two_pow l hpw k h5.symm
  rw [Nat.mod_eq_of_lt hXlt]
  simpa using hXne

/-- C4 witness: flipping bit 0 of the frame generated from "110101" is
detected. -/
theorem crc32_single_flip_detected_witness :
    (0 : Nat) < ([true, true, false, true, false, true] : Bitstring).length + 32 ∧
    verificar_crc32 (flipAt (adicionar_crc32 [true, true, false, true, false, true]) 0)
      = false :=
  ⟨by decide, crc32_single_flip_detected [true, true, false, true, false, true] 0 (by decide)⟩

/-- C10: frames shorter than 32 bits are rejected by verificar_crc32 with a
plain False, not an exception. -/
theorem verificar_crc32_short (frame_bits : Bitstring) (h : frame_bits.length < 32) :
    verificar_crc32 frame_bits = false := by
  have h2 : frame_bits.length < GRAU_CRC32 := h
  rw [verificar_crc32_def, if_pos h2]

/-- C10 witness: the one-bit frame "1" is rejected. -/
theorem verificar_crc32_short_witness :
    ([true] : Bitstring).length < 32 ∧ verificar_crc32 [true] = false :=
  ⟨by decide, verificar_crc32_short [true] (by decide)⟩

/- ===== Hamming proofs ===== -/

/-- getD after set at the same (in-range) index reads the written value. -/
theorem getD_set_eq : ∀ (l : Bitstring) (i : Nat) (v : Bool), i < l.length →
    (l.set i v).getD i false = v := by
  intro l
  induction l with
  | nil => intro i v h; simp at h
  | cons b rest ih =>
    intro i v h
    cases i with
    | zero => rfl
    | succ j =>
      have : j < rest.length := by simp at h; omega
      exact ih j v this

/-- getD after set at a different index is unchanged. -/
theorem getD_set_ne : ∀ (l : Bitstring) (i j : Nat) (v : Bool), i ≠ j →
    (l.set i v).getD j false = l.getD j false := by
  intro l
  induction l with
  | nil => intro i j v _; cases i <;> rfl
  | cons b rest ih =>
    intro i j v hne
    cases i with
    | zero =>
      cases j with
      | zero => exact absurd rfl hne
      | succ k => rfl
    | succ i2 =>
      cases j with
      | zero => rfl
      | succ k => exact ih i2 k v (fun h => hne (by omega))

/-- Writing back the value already present leaves the list unchanged. -/
theorem set_getD_self : ∀ (l : Bitstring) (i : Nat), l.set i (l.getD i false) = l := by
  intro l
  induction l with
  | nil => intro i; rfl
  | cons b rest ih =>
    intro i
    cases i with
    | zero => rfl
    | succ j =>
      show b :: rest.set j (rest.getD j false) = b :: rest
      rw [ih j]

/-- The while loop findLeast lands exactly on the least satisfying value,
given any starting point at or below it and enough fuel. -/
theorem findLeast_eq (P : Nat → Bool) (m0 : Nat) (hP : P m0 = true)
    (hmin : ∀ k, k < m0 → P k = false) :
    ∀ (fuel start : Nat), start ≤ m0 → m0 ≤ start + fuel → findLeast P start fuel = m0 := by
  intro fuel
  induction fuel with
  | zero =>
    intro start h1 h2
    simp only [findLeast]
    omega
  | succ f ih =>
    intro start h1 h2
    simp only [findLeast]
    by_cases hs : P start = true
    · rw [if_pos hs]
      by_contra hne
      have hlt : start < m0 := by omega
      rw [hmin start hlt] at hs
      exact absurd hs (by simp)
    · rw [if_neg hs]
      apply ih
      · have : start ≠ m0 := fun h => hs (h ▸ hP)
        omega
      · omega

/-- One extra parity bit always suffices: 2^(n+1) covers n data plus n+1
parity plus one. -/
theorem parity_bound (n : Nat) : n + (n + 1) + 1 ≤ 2 ^ (n + 1) := by
  have h := Nat.lt_two_pow n
  have h2 : 2 ^ (n + 1) = 2 * 2 ^ n := by rw [Nat.pow_succ]; ring
  omega

/-- determine_parity_bits computes the least m with 2^m >= n + m + 1. -/
theorem determine_parity_bits_spec (n : Nat) :
    (n + determine_parity_bits n + 1 ≤ 2 ^ determine_parity_bits n) ∧
    (∀ k, k < determine_parity_bits n → 2 ^ k < n + k + 1) := by
  have hex : ∃ m, n + m + 1 ≤ 2 ^ m := ⟨n + 1, parity_bound n⟩
  have heq : determine_parity_bits n = Nat.find hex := by
    simp only [determine_parity_bits]
    apply findLeast_eq
    · exact decide_eq_true (Nat.find_spec hex)
    · intro k hk
      exact decide_eq_false (Nat.find_min hex hk)
    · omega
    · have := Nat.find_min' hex (parity_bound n)
      omega
  rw [heq]
  refine ⟨Nat.find_spec hex, fun k hk => ?_⟩
  have := Nat.find_min hex hk
  omega

/-- hammingM computes the least m with 2^m >= total + 1. -/
theorem hammingM_spec (t : Nat) :
    (t + 1 ≤ 2 ^ hammingM t) ∧ (∀ k, k < hammingM t → 2 ^ k < t + 1) := by
  have hex : ∃ m, t + 1 ≤ 2 ^ m := ⟨t, Nat.lt_two_pow t⟩
  have heq : hammingM t = Nat.find hex := by
    simp only [hammingM]
    apply findLeast_eq
    · exact decide_eq_true (Nat.find_spec hex)
    · intro k hk
      exact decide_eq_false (Nat.find_min hex hk)
    · omega
    · have := Nat.find_min' hex (Nat.lt_two_pow t)
      omega
  rw [heq]
  refine ⟨Nat.find_spec hex, fun k hk => ?_⟩
  have := Nat.find_min hex hk
  omega

/-- The decoder recomputes the encoder's parity count from the total length:
minimality on both sides makes the two loops agree. -/
theorem hammingM_total (n : Nat) :
    hammingM (n + determine_parity_bits n) = determine_parity_bits n := by
  obtain ⟨h1, h2⟩ := determine_parity_bits_spec n
  obtain ⟨h3, h4⟩ := hammingM_spec (n + determine_parity_bits n)
  by_contra hne
  rcases Nat.lt_or_ge (hammingM (n + determine_parity_bits n)) (determine_parity_bits n)
    with h | h
  · have := h2 _ h
    omega
  · have hlt : determine_parity_bits n < hammingM (n + determine_parity_bits n) := by omega
    have := h4 _ hlt
    omega

/-- Powers of two satisfy the n & (n-1) == 0 test. -/
theorem is_power_of_two_two_pow (e : Nat) : is_power_of_two (2 ^ e) = true := by
  have h1 : 0 < 2 ^ e := Nat.two_pow_pos e
  have h2 : 2 ^ e &&& (2 ^ e - 1) = 0 := by
    apply Nat.eq_of_testBit_eq
    intro j
    rw [Nat.testBit_and, Nat.testBit_two_pow, Nat.testBit_two_pow_sub_one, Nat.zero_testBit]
    by_cases hj : e = j
    · subst hj; simp
    · simp [hj]
  simp [is_power_of_two, h1, h2]

/-- Conversely, a positive number passing the n & (n-1) == 0 test is a power
of two. -/
theorem pow2_of_and_pred : ∀ x : Nat, 0 < x → x &&& (x - 1) = 0 → ∃ e, x = 2 ^ e := by
  intro x
  induction x using Nat.strong_induction_on with
  | _ x ih =>
    intro hx h
    have hb : ∀ j, (x.testBit j && (x - 1).testBit j) = false := by
      intro j
      have h2 := congrArg (fun z => z.testBit j) h
      simp only [Nat.testBit_and, Nat.zero_testBit] at h2
      exact h2
    rcases Nat.even_or_odd x with he | ho
    · have he2 : x % 2 = 0 := Nat.even_iff.mp he
      have hge : 2 ≤ x := by omega
      have hy0 : 0 < x / 2 := by omega
      have hy : x / 2 &&& (x / 2 - 1) = 0 := by
        apply Nat.eq_of_testBit_eq
        intro j
        rw [Nat.testBit_and, Nat.zero_testBit]
        have e1 : (x / 2).testBit j = x.testBit (j + 1) := (Nat.testBit_add_one x j).symm
        have e2 : (x / 2 - 1).testBit j = (x - 1).testBit (j + 1) := by
          rw [Nat.testBit_add_one]
          congr 1
          omega
        rw [e1, e2]
        exact hb (j + 1)
      obtain ⟨e, hey⟩ := ih (x / 2) (by omega) hy0 hy
      refine ⟨e + 1, ?_⟩
      have hx2 : x = 2 * (x / 2) := by omega
      rw [hx2, hey, Nat.pow_succ]
      ring
    · have ho2 : x % 2 = 1 := Nat.odd_iff.mp ho
      by_cases hx1 : x = 1
      · exact ⟨0, by simpa using hx1⟩
      · exfalso
        have hge : 3 ≤ x := by omega
        have hy0 : x / 2 ≠ 0 := by omega
        obtain ⟨j, hj⟩ := Nat.ne_zero_implies_bit_true hy0
        have h1 : x.testBit (j + 1) = true := by
          rw [Nat.testBit_add_one]
          exact hj
        have h2 : (x - 1).testBit (j + 1) = true := by
          rw [Nat.testBit_add_one]
          have hdiv : (x - 1) / 2 = x / 2 := by omega
          rw [hdiv]
          exact hj
        have := hb (j + 1)
        rw [h1, h2] at this
        exact absurd this (by simp)

/-- Characterization of the power-of-two test. -/
theorem is_power_of_two_iff (x : Nat) : is_power_of_two x = true ↔ ∃ e, x = 2 ^ e := by
  constructor
  · intro h
    simp only [is_power_of_two, Bool.and_eq_true, decide_eq_true_eq, beq_iff_eq] at h
    exact pow2_of_and_pred x h.1 h.2
  · rintro ⟨e, rfl⟩
    exact is_power_of_two_two_pow e

/-- placeData always builds a codeword of the requested length. -/
theorem placeData_length : ∀ (len : Nat) (data : Bitstring) (i : Nat),
    (placeData data i len).length = len := by
  intro len
  induction len with
  | zero => intro data i; rfl
  | succ k ih =>
    intro data i
    simp only [placeData]
    by_cases hp : is_power_of_two (i + 1) = true
    · rw [if_pos hp]
      simp [ih]
    · rw [if_neg hp]
      cases data with
      | nil => simp [ih]
      | cons b rest => simp [ih]

/-- placeData leaves power-of-two 1-indexed positions at zero. -/
theorem placeData_getD_pow2 : ∀ (len : Nat) (data : Bitstring) (i q : Nat), q < len →
    is_power_of_two (i + q + 1) = true → (placeData data i len).getD q false = false := by
  intro len
  induction len with
  | zero => intro data i q hq _; omega
  | succ k ih =>
    intro data i q hq hpow
    simp only [placeData]
    cases q with
    | zero =>
      have hp : is_power_of_two (i + 1) = true := by
        have : i + 0 + 1 = i + 1 := by omega
        rwa [this] at hpow
      rw [if_pos hp]
      rfl
    | succ q2 =>
      have hpow2 : is_power_of_two ((i + 1) + q2 + 1) = true := by
        have : (i + 1) + q2 + 1 = i + (q2 + 1) + 1 := by omega
        rwa [this]
      by_cases hp : is_power_of_two (i + 1) = true
      · rw [if_pos hp]
        exact ih data (i+1) q2 (by omega) hpow2
      · rw [if_neg hp]
        cases data with
        | nil =>
          show (placeData [] (i+1) k).getD q2 false = false
          exact ih [] (i+1) q2 (by omega) hpow2
        | cons b rest =>
          show (placeData rest (i+1) k).getD q2 false = false
          exact ih rest (i+1) q2 (by omega) hpow2

/-- Setting a value at a power-of-two 1-indexed position does not change the
extracted data. -/
theorem extractData_set_pow2 : ∀ (cw : Bitstring) (q i : Nat) (v : Bool),
    is_power_of_two (i + q + 1) = true →
    extractData (cw.set q v) i = extractData cw i := by
  intro cw
  induction cw with
  | nil => intro q i v _; rfl
  | cons b rest ih =>
    intro q i v hp
    cases q with
    | zero =>
      have hp2 : is_power_of_two (i + 1) = true := by
        have : i + 0 + 1 = i + 1 := by omega
        rwa [this] at hp
      show extractData (v :: rest) i = extractData (b :: rest) i
      simp only [extractData]
      rw [if_pos hp2, if_pos hp2]
    | succ q2 =>
      show extractData (b :: rest.set q2 v) i = extractData (b :: rest) i
      simp only [extractData]
      have hp2 : is_power_of_two ((i + 1) + q2 + 1) = true := by
        have : (i + 1) + q2 + 1 = i + (q2 + 1) + 1 := by omega
        rwa [this]
      rw [ih q2 (i+1) v hp2]

/-- The parity-filling loop only writes power-of-two positions, so extraction
sees through it. -/
theorem setParities_extract : ∀ (fuel : Nat) (cw : Bitstring) (i : Nat),
    extractData (setParities cw i fuel) 0 = extractData cw 0 := by
  intro fuel
  induction fuel with
  | zero => intro cw i; rfl
  | succ f ih =>
    intro cw i
    simp only [setParities]
    by_cases hc : parityCount cw (2 ^ i) % 2 ≠ 0
    · rw [if_pos hc, ih]
      apply extractData_set_pow2
      have he : 0 + (2 ^ i - 1) + 1 = 2 ^ i := by
        have := Nat.two_pow_pos i
        omega
      rw [he]
      exact is_power_of_two_two_pow i
    · rw [if_neg hc, ih]

/-- Every window position is a parity or a data slot. -/
theorem counts_sum : ∀ (len i : Nat), nonPow2Count i len + pow2Count i len = len := by
  intro len
  induction len with
  | zero => intro i; rfl
  | succ k ih =>
    intro i
    simp only [nonPow2Count, pow2Count]
    by_cases hp : is_power_of_two (i + 1) = true
    · rw [if_pos hp, if_pos hp]
      have := ih (i+1)
      omega
    · rw [if_neg hp, if_neg hp]
      have := ih (i+1)
      omega

/-- Extraction inverts placement, returning the placed prefix of the data. -/
theorem extract_place : ∀ (len : Nat) (data : Bitstring) (i : Nat),
    nonPow2Count i len ≤ data.length →
    extractData (placeData data i len) i = data.take (nonPow2Count i len) := by
  intro len
  induction len with
  | zero => intro data i h; simp [placeData, extractData, nonPow2Count]
  | succ k ih =>
    intro data i h
    by_cases hp : is_power_of_two (i + 1) = true
    · have hcount : nonPow2Count i (k+1) = nonPow2Count (i+1) k := by
        simp [nonPow2Count, hp]
      have hplace : placeData data i (k+1) = false :: placeData data (i+1) k := by
        simp [placeData, hp]
      rw [hplace, hcount]
      have hext : extractData (false :: placeData data (i+1) k) i
          = extractData (placeData data (i+1) k) (i+1) := by
        simp [extractData, hp]
      rw [hext]
      rw [hcount] at h
      exact ih data (i+1) h
    · have hcount : nonPow2Count i (k+1) = 1 + nonPow2Count (i+1) k := by
        simp [nonPow2Count, hp]
      rw [hcount] at h
      cases data with
      | nil =>
        simp only [List.length_nil] at h
        omega
      | cons b rest =>
        have hplace : placeData (b :: rest) i (k+1) = b :: placeData rest (i+1) k := by
          simp [placeData, hp]
        rw [hplace, hcount]
        have hext : extractData (b :: placeData rest (i+1) k) i
            = b :: extractData (placeData rest (i+1) k) (i+1) := by
          simp [extractData, hp]
        rw [hext]
        rw [ih rest (i+1) (by simp only [List.length_cons] at h; omega)]
        have h1 : 1 + nonPow2Count (i+1) k = nonPow2Count (i+1) k + 1 := by omega
        rw [h1, List.take_succ_cons]

/-- pow2Count splits over adjacent windows. -/
theorem pow2Count_split : ∀ (l1 l2 i : Nat),
    pow2Count i (l1 + l2) = pow2Count i l1 + pow2Count (i + l1) l2 := by
  intro l1
  induction l1 with
  | zero =>
    intro l2 i
    simp [pow2Count]
  | succ k ih =>
    intro l2 i
    have hadd : k + 1 + l2 = (k + l2) + 1 := by omega
    rw [hadd]
    simp only [pow2Count]
    rw [ih l2 (i+1)]
    have : i + 1 + k = i + (k + 1) := by omega
    rw [this]
    omega

/-- A window free of powers of two counts zero. -/
theorem pow2Count_zero_of_none : ∀ (len i : Nat),
    (∀ q, q < len → is_power_of_two (i + q + 1) = false) → pow2Count i len = 0 := by
  intro len
  induction len with
  | zero => intro i _; rfl
  | succ k ih =>
    intro i hnone
    simp only [pow2Count]
    have h0 : is_power_of_two (i + 1) = false := by
      have := hnone 0 (by omega)
      simpa using this
    rw [h0]
    have hrec := ih (i+1) (fun q hq => by
      have hn := hnone (q+1) (by omega)
      have he : i + (q + 1) + 1 = (i + 1) + q + 1 := by omega
      rwa [he] at hn)
    simpa using hrec

/-- The powers of two among 1..L number exactly m+1 when 2^m <= L < 2^(m+1). -/
theorem pow2Count_window : ∀ (m L : Nat), 2 ^ m ≤ L → L < 2 ^ (m + 1) →
    pow2Count 0 L = m + 1 := by
  intro m
  induction m with
  | zero =>
    intro L h1 h2
    have hL : L = 1 := by
      have : (2 : Nat) ^ 0 = 1 := rfl
      have h3 : (2 : Nat) ^ 1 = 2 := rfl
      omega
    subst hL
    decide
  | succ k ih =>
    intro L h1 h2
    have hpos := Nat.two_pow_pos (k + 1)
    have hsplit : L = (2 ^ (k + 1) - 1) + (L - (2 ^ (k + 1) - 1)) := by omega
    rw [hsplit, pow2Count_split]
    have hfirst : pow2Count 0 (2 ^ (k + 1) - 1) = k + 1 := by
      apply ih
      · have hk := Nat.pow_lt_pow_right (by omega : 1 < 2) (by omega : k < k + 1)
        omega
      · omega
    have hrest : L - (2 ^ (k + 1) - 1) = 1 + (L - 2 ^ (k + 1)) := by omega
    rw [hfirst, hrest, pow2Count_split]
    have hone : pow2Count (0 + (2 ^ (k + 1) - 1)) 1 = 1 := by
      simp only [pow2Count]
      have he : 0 + (2 ^ (k + 1) - 1) + 1 = 2 ^ (k + 1) := by omega
      rw [he, is_power_of_two_two_pow]
      rfl
    have hnone : pow2Count (0 + (2 ^ (k + 1) - 1) + 1) (L - 2 ^ (k + 1)) = 0 := by
      apply pow2Count_zero_of_none
      intro q hq
      have hval : 0 + (2 ^ (k + 1) - 1) + 1 + q + 1 = 2 ^ (k + 1) + q + 1 := by omega
      rw [hval]
      by_contra hcon
      have htrue : is_power_of_two (2 ^ (k + 1) + q + 1) = true := by
        cases hc : is_power_of_two (2 ^ (k + 1) + q + 1)
        · exact absurd hc hcon
        · rfl
      obtain ⟨e, he⟩ := (is_power_of_two_iff _).mp htrue
      have hlow : 2 ^ (k + 1) < 2 ^ e := by omega
      have hhigh : 2 ^ e < 2 ^ (k + 2) := by
        have : 2 ^ (k + 1) + q + 1 < 2 ^ (k + 2) := by
          have h4 : L < 2 ^ (k + 2) := h2
          omega
        omega
      have he1 : k + 1 < e := by
        by_contra hle
        have : 2 ^ e ≤ 2 ^ (k + 1) := Nat.pow_le_pow_right (by omega) (by omega)
        omega
      have : 2 ^ (k + 2) ≤ 2 ^ e := Nat.pow_le_pow_right (by omega) (by omega)
      omega
    rw [hone, hnone]

/-- Counting over a range with two predicates differing at one point: moving
the differing summand across makes the counts equal. -/
theorem countP_congr_except (f g : Nat → Bool) (q : Nat)
    (h : ∀ j, j ≠ q → f j = g j) : ∀ n, q < n →
    (List.range n).countP f + (if g q then 1 else 0)
      = (List.range n).countP g + (if f q then 1 else 0) := by
  intro n
  induction n with
  | zero => intro hq; omega
  | succ k ih =>
    intro hq
    rw [List.range_succ, List.countP_append, List.countP_append]
    have hf : List.countP f [k] = if f k then 1 else 0 := by
      rw [List.countP_cons, List.countP_nil]
      omega
    have hg : List.countP g [k] = if g k then 1 else 0 := by
      rw [List.countP_cons, List.countP_nil]
      omega
    by_cases hk : q = k
    · subst hk
      have heq : (List.range q).countP f = (List.range q).countP g := by
        apply List.countP_congr
        intro j hj
        have : j < q := List.mem_range.mp hj
        rw [h j (by omega)]
      rw [heq, hf, hg]
      omega
    · have := ih (by omega)
      rw [hf, hg, h k (fun he => hk he.symm)]
      omega

/-- Effect of one set on a parity count: exchange the contribution of the old
bit for that of the new bit. -/
theorem parityCount_set (cw : Bitstring) (q : Nat) (v : Bool) (p : Nat)
    (hq : q < cw.length) :
    parityCount (cw.set q v) p
        + (if decide ((q + 1) &&& p ≠ 0) && cw.getD q false then 1 else 0)
      = parityCount cw p + (if decide ((q + 1) &&& p ≠ 0) && v then 1 else 0) := by
  have hlen : (cw.set q v).length = cw.length := by simp
  have hgq : (cw.set q v).getD q false = v := getD_set_eq cw q v hq
  have h := countP_congr_except
    (fun j => decide ((j + 1) &&& p ≠ 0) && (cw.set q v).getD j false)
    (fun j => decide ((j + 1) &&& p ≠ 0) && cw.getD j false) q
    (fun j hj => by simp only [getD_set_ne cw q j v (fun he => hj he.symm)])
    cw.length hq
  simp only [hgq] at h
  simp only [parityCount, hlen]
  exact h

/-- Two powers of two share a bit exactly when they are equal. -/
theorem two_pow_and_two_pow (a b : Nat) :
    2 ^ a &&& 2 ^ b = if a = b then 2 ^ a else 0 := by
  by_cases hab : a = b
  · subst hab
    rw [if_pos rfl]
    apply Nat.eq_of_testBit_eq
    intro j
    rw [Nat.testBit_and]
    by_cases hj : a = j
    · subst hj; simp
    · simp [Nat.testBit_two_pow, hj]
  · rw [if_neg hab]
    apply Nat.eq_of_testBit_eq
    intro j
    rw [Nat.testBit_and, Nat.zero_testBit, Nat.testBit_two_pow, Nat.testBit_two_pow]
    by_cases hja : a = j
    · subst hja
      have hba : ¬ b = a := fun h => hab h.symm
      simp [hba]
    · simp [hja]

/-- A number shares a bit with 2^t exactly when its bit t is set. -/
theorem and_two_pow_ne_zero (x t : Nat) : ((x &&& 2 ^ t) ≠ 0) ↔ x.testBit t = true := by
  constructor
  · intro h
    by_contra hbit
    apply h
    apply Nat.eq_of_testBit_eq
    intro j
    rw [Nat.testBit_and, Nat.testBit_two_pow, Nat.zero_testBit]
    by_cases hj : t = j
    · subst hj
      have : x.testBit t = false := by
        cases hx : x.testBit t
        · rfl
        · exact absurd hx hbit
      simp [this]
    · simp [hj]
  · intro h hz
    have h2 := congrArg (fun z => z.testBit t) hz
    simp only [Nat.testBit_and, Nat.testBit_two_pow, Nat.zero_testBit] at h2
    rw [h] at h2
    simp at h2

/-- The parity-filling loop makes every check even: each parity bit occupies a
position that contributes to its own check only, so the loop settles each
check independently and in order. -/
theorem setParities_spec : ∀ (fuel i : Nat) (cw : Bitstring) (m : Nat),
    i + fuel = m →
    (∀ j, j < m → 2 ^ j ≤ cw.length) →
    (∀ j, i ≤ j → j < m → cw.getD (2 ^ j - 1) false = false) →
    (∀ k, k < i → parityCount cw (2 ^ k) % 2 = 0) →
    (∀ k, k < m → parityCount (setParities cw i fuel) (2 ^ k) % 2 = 0) ∧
    (setParities cw i fuel).length = cw.length := by
  intro fuel
  induction fuel with
  | zero =>
    intro i cw m hm _ _ heven
    refine ⟨fun k hk => heven k (by omega), rfl⟩
  | succ f ih =>
    intro i cw m hm hpos hzero heven
    simp only [setParities]
    by_cases hc : parityCount cw (2 ^ i) % 2 ≠ 0
    · rw [if_pos hc]
      have hqlen : 2 ^ i - 1 < cw.length := by
        have := hpos i (by omega)
        have := Nat.two_pow_pos i
        omega
      have hq1 : 2 ^ i - 1 + 1 = 2 ^ i := by
        have := Nat.two_pow_pos i
        omega
      have hmask : ∀ k, ((2 ^ i - 1 + 1) &&& 2 ^ k) = if i = k then 2 ^ i else 0 := by
        intro k
        rw [hq1, two_pow_and_two_pow]
      have hset := fun (k : Nat) =>
        parityCount_set cw (2 ^ i - 1) true (2 ^ k) hqlen
      have hp2 : ∀ j, j < m → 2 ^ j ≤ (cw.set (2 ^ i - 1) true).length := by
        intro j hj
        have := hpos j hj
        simp only [List.length_set]
        omega
      have hz2 : ∀ j, i + 1 ≤ j → j < m →
          (cw.set (2 ^ i - 1) true).getD (2 ^ j - 1) false = false := by
        intro j hj1 hj2
        have hne : 2 ^ i - 1 ≠ 2 ^ j - 1 := by
          have hij : i < j := by omega
          have hpow := Nat.pow_lt_pow_right (by omega : 1 < 2) hij
          have := Nat.two_pow_pos i
          omega
        rw [getD_set_ne cw (2 ^ i - 1) (2 ^ j - 1) true hne]
        exact hzero j (by omega) hj2
      have he2 : ∀ k, k < i + 1 → parityCount (cw.set (2 ^ i - 1) true) (2 ^ k) % 2 = 0 := by
        intro k hk
        rcases Nat.lt_or_ge k i with hki | hki
        · have h1 := hset k
          have hnz : ((2 ^ i - 1 + 1) &&& 2 ^ k) = 0 := by
            rw [hmask k, if_neg (by omega)]
          have hd : decide ((2 ^ i - 1 + 1) &&& 2 ^ k ≠ 0) = false := by
            rw [hnz]
            simp
          rw [hd] at h1
          simp at h1
          rw [h1]
          exact heven k hki
        · have hk_eq : k = i := by omega
          subst hk_eq
          have h1 := hset k
          have hnz2 : ((2 ^ k - 1 + 1) &&& 2 ^ k) = 2 ^ k := by
            rw [hmask k, if_pos rfl]
          have hd : decide ((2 ^ k - 1 + 1) &&& 2 ^ k ≠ 0) = true := by
            rw [hnz2]
            simp only [ne_eq, decide_eq_true_eq]
            exact (Nat.two_pow_pos k).ne'
          have hold : cw.getD (2 ^ k - 1) false = false := hzero k (by omega) (by omega)
          rw [hd, hold] at h1
          simp at h1
          omega
      obtain ⟨hres1, hres2⟩ := ih (i+1) (cw.set (2 ^ i - 1) true) m (by omega) hp2 hz2 he2
      refine ⟨hres1, ?_⟩
      rw [hres2]
      simp
    · rw [if_neg hc]
      apply ih (i+1) cw m (by omega) hpos
      · intro j hj1 hj2
        exact hzero j (by omega) hj2
      · intro k hk
        rcases Nat.lt_or_ge k i with hki | hki
        · exact heven k hki
        · have hk_eq : k = i := by omega
          subst hk_eq
          omega

/-- A fresh Hamming codeword has every parity check even, and length n + m. -/
theorem adicionar_hamming_spec (b : Bitstring) (hb : 0 < b.length) :
    (∀ k, k < determine_parity_bits b.length →
      parityCount (adicionar_hamming b) (2 ^ k) % 2 = 0) ∧
    (adicionar_hamming b).length = b.length + determine_parity_bits b.length := by
  obtain ⟨h1, h2⟩ := determine_parity_bits_spec b.length
  have hm1 : 1 ≤ determine_parity_bits b.length := by
    by_contra hcon
    have hz : determine_parity_bits b.length = 0 := by omega
    rw [hz] at h1
    have h0 : (2 : Nat) ^ 0 = 1 := rfl
    omega
  have hplen : (placeData b 0 (b.length + determine_parity_bits b.length)).length
      = b.length + determine_parity_bits b.length := placeData_length _ _ _
  have hpos : ∀ j, j < determine_parity_bits b.length →
      2 ^ j ≤ (placeData b 0 (b.length + determine_parity_bits b.length)).length := by
    intro j hj
    rw [hplen]
    have hle : 2 ^ j ≤ 2 ^ (determine_parity_bits b.length - 1) :=
      Nat.pow_le_pow_right (by omega) (by omega)
    have := h2 (determine_parity_bits b.length - 1) (by omega)
    omega
  have hzero : ∀ j, 0 ≤ j → j < determine_parity_bits b.length →
      (placeData b 0 (b.length + determine_parity_bits b.length)).getD (2 ^ j - 1) false
        = false := by
    intro j _ hj
    apply placeData_getD_pow2
    · have hx := hpos j hj
      rw [hplen] at hx
      have := Nat.two_pow_pos j
      omega
    · have he : 0 + (2 ^ j - 1) + 1 = 2 ^ j := by
        have := Nat.two_pow_pos j
        omega
      rw [he]
      exact is_power_of_two_two_pow j
  obtain ⟨hres1, hres2⟩ := setParities_spec (determine_parity_bits b.length) 0
    (placeData b 0 (b.length + determine_parity_bits b.length))
    (determine_parity_bits b.length) (by omega) hpos hzero (by intro k hk; omega)
  constructor
  · intro k hk
    show parityCount (setParities (placeData b 0
      (b.length + determine_parity_bits b.length)) 0 (determine_parity_bits b.length))
      (2 ^ k) % 2 = 0
    exact hres1 k hk
  · show (setParities (placeData b 0 (b.length + determine_parity_bits b.length)) 0
      (determine_parity_bits b.length)).length = _
    rw [hres2, hplen]

/-- Bits of the syndrome accumulator: position t ends up set when it started
set or its check in the remaining window counts odd. -/
theorem syndromeGo_testBit (cw : Bitstring) : ∀ (fuel i acc t : Nat),
    ((syndromeGo cw i fuel acc).testBit t = true ↔
      (acc.testBit t = true ∨ (i ≤ t ∧ t < i + fuel ∧ parityCount cw (2 ^ t) % 2 ≠ 0))) := by
  intro fuel
  induction fuel with
  | zero =>
    intro i acc t
    simp only [syndromeGo]
    constructor
    · intro h
      exact Or.inl h
    · rintro (h | ⟨h1, h2, h3⟩)
      · exact h
      · omega
  | succ f ih =>
    intro i acc t
    simp only [syndromeGo]
    by_cases hc : parityCount cw (2 ^ i) % 2 ≠ 0
    · have hor : (acc ||| 2 ^ i).testBit t = true ↔ (acc.testBit t = true ∨ i = t) := by
        rw [Nat.testBit_or, Nat.testBit_two_pow]
        simp
      rw [if_pos hc, ih (i+1) (acc ||| 2 ^ i) t, hor]
      constructor
      · rintro ((h | h) | ⟨h1, h2, h3⟩)
        · exact Or.inl h
        · exact Or.inr ⟨by omega, by omega, by rw [← h]; exact hc⟩
        · exact Or.inr ⟨by omega, by omega, h3⟩
      · rintro (h | ⟨h1, h2, h3⟩)
        · exact Or.inl (Or.inl h)
        · by_cases ht : t = i
          · exact Or.inl (Or.inr ht.symm)
          · exact Or.inr ⟨by omega, by omega, h3⟩
    · rw [if_neg hc, ih (i+1) acc t]
      constructor
      · rintro (h | ⟨h1, h2, h3⟩)
        · exact Or.inl h
        · exact Or.inr ⟨by omega, by omega, h3⟩
      · rintro (h | ⟨h1, h2, h3⟩)
        · exact Or.inl h
        · by_cases ht : t = i
          · exact absurd (by rwa [ht] at h3) hc
          · exact Or.inr ⟨by omega, by omega, h3⟩

/-- Bits of the full syndrome: position t is set exactly when t is a checked
parity index whose recomputed check is odd. -/
theorem hammingSyndrome_testBit (cw : Bitstring) (t : Nat) :
    ((hammingSyndrome cw).testBit t = true ↔
      (t < hammingM cw.length ∧ parityCount cw (2 ^ t) % 2 ≠ 0)) := by
  simp only [hammingSyndrome]
  rw [syndromeGo_testBit cw (hammingM cw.length) 0 0 t]
  constructor
  · rintro (h | ⟨h1, h2, h3⟩)
    · rw [Nat.zero_testBit] at h
      exact absurd h (by simp)
    · exact ⟨by omega, h3⟩
  · rintro ⟨h1, h2⟩
    exact Or.inr ⟨by omega, by omega, h2⟩

/-- Flipping one bit makes an even check odd exactly when the flipped position
contributes to that check. -/
theorem parityCount_flip_mod (cw : Bitstring) (q : Nat) (hq : q < cw.length) (p : Nat)
    (heven : parityCount cw p % 2 = 0) :
    parityCount (cw.set q (!(cw.getD q false))) p % 2
      = if (q + 1) &&& p ≠ 0 then 1 else 0 := by
  by_cases hm : (q + 1) &&& p ≠ 0
  · rw [if_pos hm]
    have hd : decide ((q + 1) &&& p ≠ 0) = true := by simpa using hm
    generalize hv : (!(cw.getD q false)) = v
    have h := parityCount_set cw q v p hq
    rw [hd] at h
    cases hold : cw.getD q false
    · rw [hold] at h hv
      simp at hv
      subst hv
      simp at h
      omega
    · rw [hold] at h hv
      simp at hv
      subst hv
      simp at h
      omega
  · rw [if_neg hm]
    have hd : decide ((q + 1) &&& p ≠ 0) = false := by simpa using hm
    generalize hv : (!(cw.getD q false)) = v
    have h := parityCount_set cw q v p hq
    rw [hd] at h
    simp at h
    omega

/-- Flipping the bit at 1-indexed position p of a fresh codeword makes the
recomputed syndrome read exactly p. -/
theorem syndrome_flip (b : Bitstring) (hb : 0 < b.length) (p : Nat) (hp1 : 1 ≤ p)
    (hp2 : p ≤ (adicionar_hamming b).length) :
    hammingSyndrome (flipAt (adicionar_hamming b) (p - 1)) = p := by
  obtain ⟨heven, hlen⟩ := adicionar_hamming_spec b hb
  obtain ⟨hd1, hd2⟩ := determine_parity_bits_spec b.length
  have hflen : (flipAt (adicionar_hamming b) (p - 1)).length
      = b.length + determine_parity_bits b.length := by
    simp [flipAt, hlen]
  have hm_eq : hammingM (flipAt (adicionar_hamming b) (p - 1)).length
      = determine_parity_bits b.length := by
    rw [hflen]
    exact hammingM_total b.length
  have htot : b.length + determine_parity_bits b.length
      < 2 ^ determine_parity_bits b.length := by omega
  have hq : p - 1 < (adicionar_hamming b).length := by omega
  have hq1 : p - 1 + 1 = p := by omega
  apply Nat.eq_of_testBit_eq
  intro t
  have hiff := hammingSyndrome_testBit (flipAt (adicionar_hamming b) (p - 1)) t
  rw [hm_eq] at hiff
  by_cases ht : t < determine_parity_bits b.length
  · have hpar0 := parityCount_flip_mod (adicionar_hamming b) (p - 1) hq (2 ^ t) (heven t ht)
    rw [hq1] at hpar0
    have hpar : parityCount (flipAt (adicionar_hamming b) (p - 1)) (2 ^ t) % 2
        = if (p &&& 2 ^ t) ≠ 0 then 1 else 0 := hpar0
    cases hpt : p.testBit t
    · have hand : ¬ ((p &&& 2 ^ t) ≠ 0) := by
        rw [and_two_pow_ne_zero]
        simp [hpt]
      rw [if_neg hand] at hpar
      have hfalse : (hammingSyndrome (flipAt (adicionar_hamming b) (p - 1))).testBit t
          = false := by
        cases hs : (hammingSyndrome (flipAt (adicionar_hamming b) (p - 1))).testBit t
        · rfl
        · exfalso
          obtain ⟨_, hodd⟩ := hiff.mp hs
          omega
      rw [hfalse]
    · have hand : (p &&& 2 ^ t) ≠ 0 := (and_two_pow_ne_zero p t).mpr hpt
      rw [if_pos hand] at hpar
      have htrue := hiff.mpr ⟨ht, by omega⟩
      rw [htrue]
  · have hsf : (hammingSyndrome (flipAt (adicionar_hamming b) (p - 1))).testBit t
        = false := by
      cases hs : (hammingSyndrome (flipAt (adicionar_hamming b) (p - 1))).testBit t
      · rfl
      · exfalso
        obtain ⟨hlt, _⟩ := hiff.mp hs
        omega
    have hpf : p.testBit t = false := by
      apply Nat.testBit_lt_two_pow
      have hle : (2 : Nat) ^ determine_parity_bits b.length ≤ 2 ^ t :=
        Nat.pow_le_pow_right (by omega) (by omega)
      omega
    rw [hsf, hpf]

/-- C2: flipping any single 1-indexed position p of a freshly encoded Hamming
codeword is exactly repaired: corrigir_hamming returns the pre-flip codeword,
with the corrected-at-p status. -/
theorem hamming_single_flip_corrected (b : Bitstring) (hb : b ≠ []) (p : Nat)
    (hp1 : 1 ≤ p) (hp2 : p ≤ (adicionar_hamming b).length) :
    corrigir_hamming (flipAt (adicionar_hamming b) (p - 1))
      = (adicionar_hamming b, HammingStatus.corrected p) := by
  have hb2 : 0 < b.length := List.length_pos.mpr hb
  have hsy := syndrome_flip b hb2 p hp1 hp2
  have hflen : (flipAt (adicionar_hamming b) (p - 1)).length
      = (adicionar_hamming b).length := by
    simp [flipAt]
  simp only [corrigir_hamming, hsy]
  rw [if_pos (by omega : 0 < p)]
  rw [if_pos (show p - 1 < (flipAt (adicionar_hamming b) (p - 1)).length by
    rw [hflen]; omega)]
  have hq : p - 1 < (adicionar_hamming b).length := by omega
  have hget : (flipAt (adicionar_hamming b) (p - 1)).getD (p - 1) false
      = !((adicionar_hamming b).getD (p - 1) false) := by
    simp only [flipAt]
    exact getD_set_eq _ _ _ hq
  have hun : (flipAt (adicionar_hamming b) (p - 1)).set (p - 1)
      (!((flipAt (adicionar_hamming b) (p - 1)).getD (p - 1) false))
      = adicionar_hamming b := by
    rw [hget, Bool.not_not]
    simp only [flipAt]
    rw [List.set_set]
    exact set_getD_self (adicionar_hamming b) (p - 1)
  rw [hun]

/-- C2 witness: Hamming-encode "1011" and flip 1-indexed position 3; decoding
reports a corrected codeword identical to the pre-flip codeword. -/
theorem hamming_single_flip_corrected_witness :
    (([true, false, true, true] : Bitstring) ≠ [] ∧ 1 ≤ 3 ∧
      3 ≤ (adicionar_hamming [true, false, true, true]).length) ∧
    corrigir_hamming (flipAt (adicionar_hamming [true, false, true, true]) (3 - 1))
      = (adicionar_hamming [true, false, true, true], HammingStatus.corrected 3) :=
  ⟨⟨by decide, by decide, by decide⟩,
    hamming_single_flip_corrected [true, false, true, true] (by decide) 3 (by decide)
      (by decide)⟩

/-- C5: stripping the power-of-two parity positions from a freshly encoded
Hamming codeword recovers exactly the original data bits. -/
theorem remover_adicionar_hamming (b : Bitstring) :
    remover_redundancia_hamming (adicionar_hamming b) = b := by
  by_cases hb : b.length = 0
  · have hnil : b = [] := List.eq_nil_of_length_eq_zero hb
    subst hnil
    rfl
  · obtain ⟨h1, h2⟩ := determine_parity_bits_spec b.length
    have hm1 : 1 ≤ determine_parity_bits b.length := by
      by_contra hcon
      have hz : determine_parity_bits b.length = 0 := by omega
      rw [hz] at h1
      have h0 : (2 : Nat) ^ 0 = 1 := rfl
      omega
    have hp2c : pow2Count 0 (b.length + determine_parity_bits b.length)
        = determine_parity_bits b.length := by
      have hlow : 2 ^ (determine_parity_bits b.length - 1)
          ≤ b.length + determine_parity_bits b.length := by
        have := h2 (determine_parity_bits b.length - 1) (by omega)
        omega
      have hhigh : b.length + determine_parity_bits b.length
          < 2 ^ (determine_parity_bits b.length - 1 + 1) := by
        have he : determine_parity_bits b.length - 1 + 1 = determine_parity_bits b.length := by
          omega
        rw [he]
        omega
      have := pow2Count_window (determine_parity_bits b.length - 1) _ hlow hhigh
      omega
    have hcnt : nonPow2Count 0 (b.length + determine_parity_bits b.length) = b.length := by
      have := counts_sum (b.length + determine_parity_bits b.length) 0
      omega
    show extractData (setParities (placeData b 0
      (b.length + determine_parity_bits b.length)) 0 (determine_parity_bits b.length)) 0 = b
    rw [setParities_extract]
    rw [extract_place (b.length + determine_parity_bits b.length) b 0 (by omega)]
    rw [hcnt, List.take_length]

/-- C9: a nonzero syndrome exceeding the codeword length makes
corrigir_hamming return the codeword unmodified with the multi-bit-error
status, which differs from the zero-syndrome status. -/
theorem corrigir_hamming_multibit (cw : Bitstring) (h1 : hammingSyndrome cw ≠ 0)
    (h2 : cw.length < hammingSyndrome cw) :
    corrigir_hamming cw = (cw, HammingStatus.multibit (hammingSyndrome cw)) ∧
    (corrigir_hamming cw).snd ≠ HammingStatus.noError := by
  have hmain : corrigir_hamming cw = (cw, HammingStatus.multibit (hammingSyndrome cw)) := by
    simp only [corrigir_hamming]
    rw [if_pos (by omega), if_neg (by omega)]
  refine ⟨hmain, ?_⟩
  rw [hmain]
  simp

/-- C9 witness: the received codeword "0101" has syndrome 6, which exceeds its
length 4; it is returned unmodified with the multi-bit status. -/
theorem corrigir_hamming_multibit_witness :
    (hammingSyndrome [false, true, false, true] ≠ 0 ∧
      ([false, true, false, true] : Bitstring).length
        < hammingSyndrome [false, true, false, true]) ∧
    corrigir_hamming [false, true, false, true]
      = ([false, true, false, true],
          HammingStatus.multibit (hammingSyndrome [false, true, false, true])) ∧
    (corrigir_hamming [false, true, false, true]).snd ≠ HammingStatus.noError :=
  ⟨⟨by decide, by decide⟩,
    corrigir_hamming_multibit [false, true, false, true] (by decide) (by decide)⟩
